import Mathlib

/-!
Shallow embedding of `src/source/cachelru.js` (the `CacheLRU` class).

Keys and values are modelled as `Nat`.  JS entry objects live in an
append-only heap `entries : List Entry`; an entry is identified by its
allocation index, which models JS object identity (objects are never
deallocated by the cache, only dropped from the index or the links).
The private `_keys` object is an association list from key to entry id;
JS `undefined` references are `Option.none`.  The numeric front end of
the capacity configuration (`parseFloat` + `toFixed` in `_toNumber`,
`parseInt` in the `limit` setter) is abstracted by taking the already
parsed integer as `Option Int` (`none` when the JS parse yields NaN or
a non-finite number).
-/

set_option maxRecDepth 100000

namespace CacheLRUJS

/-- One cache entry: the object `{key: key, value: value}` allocated at
cachelru.js line 218, with its `newer`/`older` link fields.  The link
fields hold entry ids; `none` is JS `undefined`. -/
structure Entry where
  key : Nat
  value : Nat
  newer : Option Nat := none
  older : Option Nat := none
deriving DecidableEq

/-- The whole cache state: the entry heap plus the private state of
cachelru.js — `_keys` (`keysIdx`), `scope.head`, `scope.tail`,
`_currentSize`, `_cacheSize`. -/
structure CacheLRU where
  entries : List Entry
  keysIdx : List (Nat × Nat)
  head : Option Nat := none
  tail : Option Nat := none
  currentSize : Int := 0
  cacheSize : Int
deriving DecidableEq

/-- Lookup in the `_keys` object: `_keys[key]`. -/
def getIdx : List (Nat × Nat) → Nat → Option Nat
  | [], _ => none
  | (k, id) :: rest, key => if k = key then some id else getIdx rest key

/-- Assignment on the `_keys` object: `_keys[key] = entry`.  A JS object
holds at most one binding per key, so the binding is replaced in place
when present and appended otherwise. -/
def setIdx : List (Nat × Nat) → Nat → Nat → List (Nat × Nat)
  | [], key, id => [(key, id)]
  | (k, v) :: rest, key, id =>
    if k = key then (key, id) :: rest else (k, v) :: setIdx rest key id

/-- Deletion on the `_keys` object: `delete _keys[key]` — afterwards the
object has no binding for `key`. -/
def delIdx (m : List (Nat × Nat)) (key : Nat) : List (Nat × Nat) :=
  m.filter (fun p => p.1 ≠ key)

/-- Replace the entry stored at heap position `id` (a JS field write
through an object reference); out-of-range ids leave the heap unchanged
(unreachable: JS references never dangle). -/
def modifyE : List Entry → Nat → (Entry → Entry) → List Entry
  | [], _, _ => []
  | e :: l, 0, f => f e :: l
  | e :: l, i + 1, f => e :: modifyE l i f

/-- `ref.newer = v` for the entry referenced by `id`. -/
def writeNewer (c : CacheLRU) (id : Nat) (v : Option Nat) : CacheLRU :=
  { c with entries := modifyE c.entries id (fun e => { e with newer := v }) }

/-- `ref.older = v` for the entry referenced by `id`. -/
def writeOlder (c : CacheLRU) (id : Nat) (v : Option Nat) : CacheLRU :=
  { c with entries := modifyE c.entries id (fun e => { e with older := v }) }

/-- `ref.value = v` for the entry referenced by `id`. -/
def writeValue (c : CacheLRU) (id : Nat) (v : Nat) : CacheLRU :=
  { c with entries := modifyE c.entries id (fun e => { e with value := v }) }

/-- The minimum cache size `_minCacheSize` (cachelru.js line 25). -/
def minCacheSize : Int := 2

/-- `Number.MAX_VALUE`, the largest finite double: the integer
`(2^53 - 1) * 2^971`, written as a numeral so that kernel evaluation
never unfolds the power. -/
def maxNumberValue : Int := 179769313486231570814527423731704356798070567525844996598917476803157260780028538760589558632766878171540458953514382464234321326889464182768467546703537516986049910576551282076245490090389328944075868508455133942304583236903222948165808559332123348274797826204144723168738177180919299881250404026184124858368

/-- `_toNumber(value, onFailedConversion, minValue, maxValue)`
(cachelru.js lines 61–86) on an already-parsed input: `none` stands for
a parse that produced NaN or a non-finite number (then
`onFailedConversion` is returned), `some v` for the finite parse result
rounded to an integer by `toFixed(0)`; the result is clamped into
`[minValue, maxValue]`.  Both call sites pass all four arguments, so
the `arguments.length` defaulting never fires, and the second
`isFinite` test cannot fail on an integer. -/
def toNumber (value : Option Int) (onFailedConversion minValue maxValue : Int) : Int :=
  match value with
  | none => onFailedConversion
  | some v =>
    if v > maxValue then maxValue
    else if v < minValue then minValue
    else v

/-- The constructor `CacheLRU(size)` (cachelru.js lines 19–44):
`_cacheSize = _toNumber(size, _minCacheSize, _minCacheSize,
Number.MAX_VALUE)`, everything else empty. -/
def CacheLRU.init (size : Option Int) : CacheLRU :=
  { entries := []
    keysIdx := []
    head := none
    tail := none
    currentSize := 0
    cacheSize := toNumber size minCacheSize minCacheSize maxNumberValue }

/-- `scope.destroy` (cachelru.js lines 92–96): drops `head`, `tail`,
the index and the size counter.  The heap keeps the now-unreferenced
objects; they are unreachable from the cache state. -/
def CacheLRU.destroy (c : CacheLRU) : CacheLRU :=
  { c with head := none, tail := none, currentSize := 0, keysIdx := [] }

/-- The promotion step of `scope.get` (cachelru.js lines 117–131) for
an entry `e0` referenced by `id` that is not the tail: unlink it from
its position and relink it at the tail.  Translation is statement by
statement; the entry is re-read from the heap after the first write so
that any aliasing behaves exactly as the JS field accesses do. -/
def relink (c : CacheLRU) (id : Nat) (e0 : Entry) : CacheLRU :=
  let c1 :=
    match e0.newer with
    | some nid =>
      let ch := if some id = c.head then { c with head := e0.newer } else c
      writeOlder ch nid e0.older
    | none => c
  let e1 := (c1.entries[id]?).getD e0
  let c2 :=
    match e1.older with
    | some oid => writeNewer c1 oid e1.newer
    | none => c1
  let c3 := writeNewer c2 id none
  let c4 := writeOlder c3 id c3.tail
  let c5 :=
    match c4.tail with
    | some tid => writeNewer c4 tid (some id)
    | none => c4
  { c5 with tail := some id }

/-- `scope.get(key, true)` (cachelru.js lines 105–137), the
`returnEntry` variant used by `set`: returns the entry reference (its
id) and the relinked state. -/
def CacheLRU.getE (c : CacheLRU) (key : Nat) : Option Nat × CacheLRU :=
  match getIdx c.keysIdx key with
  | none => (none, c)
  | some id =>
    match c.entries[id]? with
    | none => (none, c)
    | some e0 =>
      if some id = c.tail then
        (some id, c)
      else
        (some id, relink c id e0)

/-- `scope.get(key)` (cachelru.js lines 105–137) without `returnEntry`:
same relinking, but the returned result is `entry.value`. -/
def CacheLRU.get (c : CacheLRU) (key : Nat) : Option Nat × CacheLRU :=
  let r := c.getE key
  (r.1.bind (fun id => (r.2.entries[id]?).map Entry.value), r.2)

/-- `scope.isSet(key)` (cachelru.js lines 145–147): returns `_keys[key]`
— the entry reference itself (truthy) or `undefined` (falsy), not a
`Boolean`.  It reads the index and nothing else, so it is a pure
observer of the state. -/
def CacheLRU.isSet (c : CacheLRU) (key : Nat) : Option Nat :=
  getIdx c.keysIdx key

/-- `scope.shift()` (cachelru.js lines 290–303): unlinks the current
head, clears its link fields, deletes its key from the index and
returns it.  Note that `_currentSize` is not touched. -/
def CacheLRU.shift (c : CacheLRU) : Option Nat × CacheLRU :=
  match c.head with
  | none => (none, c)
  | some hid =>
    match c.entries[hid]? with
    | none => (some hid, c)
    | some e0 =>
      let c1 :=
        match e0.newer with
        | some nid => writeOlder { c with head := e0.newer } nid none
        | none => { c with head := none }
      let c2 := writeOlder (writeNewer c1 hid none) hid none
      let c3 := { c2 with keysIdx := delIdx c2.keysIdx e0.key }
      (some hid, c3)

/-- `scope.put(key, value)` (cachelru.js lines 217–233): allocates a new
entry, registers it under `key` (overwriting any existing binding),
links it at the tail, and either evicts via `shift` when
`_currentSize === _cacheSize` or increments `_currentSize`.  The JS
results `null` and `undefined` are both `none`; an evicted entry is
`some id`. -/
def CacheLRU.put (c : CacheLRU) (key value : Nat) : Option Nat × CacheLRU :=
  let id := c.entries.length
  let c0 := { c with entries := c.entries ++ [({ key := key, value := value } : Entry)] }
  let c1 := { c0 with keysIdx := setIdx c0.keysIdx key id }
  let c2 :=
    match c1.tail with
    | some tid => writeOlder (writeNewer c1 tid (some id)) id c1.tail
    | none => { c1 with head := some id }
  let c3 := { c2 with tail := some id }
  if c3.currentSize = c3.cacheSize then
    c3.shift
  else
    (none, { c3 with currentSize := c3.currentSize + 1 })

/-- `scope.remove(key)` (cachelru.js lines 241–261): deletes the binding
for `entry.key`, patches the neighbour links through the four
positional cases, decrements `_currentSize` and returns `entry.value`;
an absent key returns `undefined` with no effect. -/
def CacheLRU.remove (c : CacheLRU) (key : Nat) : Option Nat × CacheLRU :=
  match getIdx c.keysIdx key with
  | none => (none, c)
  | some id =>
    match c.entries[id]? with
    | none => (none, c)
    | some e0 =>
      let c1 := { c with keysIdx := delIdx c.keysIdx e0.key }
      let c2 :=
        match e0.newer, e0.older with
        | some nid, some oid => writeOlder (writeNewer c1 oid e0.newer) nid e0.older
        | some nid, none => { writeOlder c1 nid none with head := some nid }
        | none, some oid => { writeNewer c1 oid none with tail := some oid }
        | none, none => { c1 with head := none, tail := none }
      (some e0.value, { c2 with currentSize := c2.currentSize - 1 })

/-- `scope.set(key, value)` (cachelru.js lines 270–283): upsert through
`scope.get(key, true)`, falling back to `put`; on eviction the evicted
entry's value is returned. -/
def CacheLRU.set (c : CacheLRU) (key value : Nat) : Option Nat × CacheLRU :=
  let r := c.getE key
  match r.1 with
  | some id =>
    match r.2.entries[id]? with
    | none => (none, r.2)
    | some e => (some e.value, writeValue r.2 id value)
  | none =>
    let p := r.2.put key value
    match p.1 with
    | some oid => ((p.2.entries[oid]?).map Entry.value, p.2)
    | none => (none, p.2)

/-- `n` successive `scope.shift()` calls: the effect of Underscore's
`_.times(n, scope.shift.bind(scope))`, which invokes its iteratee
`max(0, n)` times (the `limit` setter's external dependency,
cachelru.js line 205). -/
def shiftTimes : Nat → CacheLRU → CacheLRU
  | 0, c => c
  | n + 1, c => shiftTimes n (c.shift).2

/-- The `limit` setter (cachelru.js lines 198–207): `parseInt` the new
value (`none` for a NaN/non-finite parse), clamp below by
`_minCacheSize`, store it, and when `_currentSize - value` is non-zero
run `_.times(_currentSize - value, scope.shift.bind(scope))` — that is,
`max(0, _currentSize - value)` shifts.  `_currentSize` itself is not
adjusted. -/
def CacheLRU.setLimit (c : CacheLRU) (v : Option Int) : CacheLRU :=
  let value : Int :=
    match v with
    | none => minCacheSize
    | some n => if n < minCacheSize then minCacheSize else n
  let c1 := { c with cacheSize := value }
  if c1.currentSize - value = 0 then c1
  else shiftTimes (c1.currentSize - value).toNat c1

/-- The number of entries the cache currently holds, i.e. the number of
keys in the index — the spec's `count` ("current number of entries").
Distinct from the `_currentSize` counter, which the code does not keep
in sync with it on every path. -/
def CacheLRU.count (c : CacheLRU) : Nat :=
  c.keysIdx.length

/-- The ascending traversal of `scope.iterate` (cachelru.js lines
168–174) as an observer returning the ids visited from a starting
reference via `newer`; the fuel argument bounds the walk by the heap
size, which is enough for every acyclic chain (the JS loop would not
terminate on a cyclic one). -/
def walkFrom (c : CacheLRU) : Nat → Option Nat → List Nat
  | 0, _ => []
  | _, none => []
  | fuel + 1, some id =>
    match c.entries[id]? with
    | none => []
    | some e => id :: walkFrom c fuel e.newer

/-- The order list read from `scope.head` toward `scope.tail`. -/
def walk (c : CacheLRU) : List Nat :=
  walkFrom c c.entries.length c.head

/-- The key stored in the entry referenced by `id`. -/
def keyAt (c : CacheLRU) (id : Nat) : Option Nat :=
  (c.entries[id]?).map Entry.key

/-- The value currently associated with `key`, read through the index
without promotion (an observer, not a source operation). -/
def peek (c : CacheLRU) (key : Nat) : Option Nat :=
  (getIdx c.keysIdx key).bind (fun id => (c.entries[id]?).map Entry.value)

/-- A malformed or below-floor capacity input: the JS numeric parse
produced NaN or a non-finite number (`none`), or a finite number whose
integer part is below the floor `_minCacheSize = 2`. -/
def malformedCap : Option Int → Prop
  | none => True
  | some n => n < 2

instance : DecidablePred malformedCap := by
  intro v
  cases v with
  | none => exact isTrue trivial
  | some n => exact inferInstanceAs (Decidable (n < 2))

/-- Key consistency of the index: every binding of `_keys` references a
live entry whose `key` field is the binding's key.  This holds in every
state the JS code can reach, because `put` is the only writer of
bindings and stores the entry it just created under that entry's key. -/
def idxOk (c : CacheLRU) : Prop :=
  ∀ p ∈ c.keysIdx, ((c.entries[p.2]?).map Entry.key) = some p.1

instance (c : CacheLRU) : Decidable (idxOk c) :=
  inferInstanceAs (Decidable (∀ p ∈ c.keysIdx, _))

/-- The head-to-tail chain of the order list as a Boolean check: from
the reference `p`, `ids` lists exactly the entries reached by following
`newer`, ending at an entry with no `newer`. -/
def chainB (c : CacheLRU) : Option Nat → List Nat → Bool
  | p, [] => p = none
  | p, id :: rest =>
    p = some id &&
      match c.entries[id]? with
      | none => false
      | some e => chainB c e.newer rest

/-- `ids` is the complete order list of `c`: the walk from `head`
visits exactly `ids` and `tail` references its last element. -/
def orderedAs (c : CacheLRU) (ids : List Nat) : Prop :=
  chainB c c.head ids = true ∧ c.tail = ids.getLast?

instance (c : CacheLRU) (ids : List Nat) : Decidable (orderedAs c ids) :=
  inferInstanceAs (Decidable (_ ∧ _))

/-- The head-to-tail chain with both link directions checked: from the
references `prev`/`p`, `ids` lists exactly the entries reached by
following `newer`, each entry's `older` pointing back at its
predecessor, the last entry having no `newer`.  This is the spec's
mutual-consistency invariant for the doubly-linked order. -/
def dchainB (c : CacheLRU) : Option Nat → Option Nat → List Nat → Bool
  | _, p, [] => p = none
  | prev, p, id :: rest =>
    p = some id &&
      match c.entries[id]? with
      | none => false
      | some e => decide (e.older = prev) && dchainB c (some id) e.newer rest

/-- A doubly-linked chain segment: walking `ids` from `prev`/`p` leaves
the walk in state `prevOut`/`pOut`; used to split a chain at a node. -/
def dchainSeg (c : CacheLRU) :
    Option Nat → Option Nat → List Nat → Option Nat → Option Nat → Bool
  | prev, p, [], prevOut, pOut => prev = prevOut && p = pOut
  | prev, p, id :: rest, prevOut, pOut =>
    p = some id &&
      match c.entries[id]? with
      | none => false
      | some e => decide (e.older = prev) && dchainSeg c (some id) e.newer rest prevOut pOut

/-- `ids` is the complete doubly-linked order list of `c`: the walk
from `head` visits exactly `ids` with consistent back links, and
`tail` references its last element. -/
def dOrderedAs (c : CacheLRU) (ids : List Nat) : Prop :=
  dchainB c none c.head ids = true ∧ c.tail = ids.getLast?

instance (c : CacheLRU) (ids : List Nat) : Decidable (dOrderedAs c ids) :=
  inferInstanceAs (Decidable (_ ∧ _))

/-- The index binding for `k`, when present, references a node on the
order chain `ids` (true in every state the JS code can reach). -/
def idxOnChain (c : CacheLRU) (k : Nat) (ids : List Nat) : Prop :=
  match getIdx c.keysIdx k with
  | none => True
  | some id => id ∈ ids

instance (c : CacheLRU) (k : Nat) (ids : List Nat) :
    Decidable (idxOnChain c k ids) :=
  match h : getIdx c.keysIdx k with
  | none => isTrue (by simp [idxOnChain, h])
  | some id =>
    if him : id ∈ ids then isTrue (by simp [idxOnChain, h, him])
    else isFalse (by simp [idxOnChain, h, him])

/-- The entry that `put` number `i` (zero-based, key and value both
`i`) creates during the fill of a fresh cache, as it stands once `n`
entries are present: linked after entry `i - 1` and before `i + 1`. -/
def chainEntry (n i : Nat) : Entry :=
  { key := i
    value := i
    newer := if i + 1 < n then some (i + 1) else none
    older := if i = 0 then none else some (i - 1) }

/-- The cache state reached from a fresh cache of capacity `cap` after
`n` non-evicting puts of the keys `0, …, n-1` (values equal keys):
entry ids coincide with keys, the order list is `0, …, n-1`. -/
def chainState (cap : Int) (n : Nat) : CacheLRU :=
  { entries := (List.range n).map (chainEntry n)
    keysIdx := (List.range n).map (fun i => (i, i))
    head := if n = 0 then none else some 0
    tail := if n = 0 then none else some (n - 1)
    currentSize := (n : Int)
    cacheSize := cap }

/-- `n` successive `put i i` calls for `i = 0, …, n-1` on `c`. -/
def putN (c : CacheLRU) : Nat → CacheLRU
  | 0 => c
  | n + 1 => ((putN c n).put n n).2

/-- Capacity-3 cache holding 10 ↦ 1 (entry id 0) then 20 ↦ 2 (entry
id 1), the base state for exercising a duplicate-key `put`. -/
def dupBase : CacheLRU :=
  (((CacheLRU.init (some 3)).put 10 1).2.put 20 2).2

/-- Fresh cache of capacity 5 filled with the five entries
a = 1 ↦ 11, b = 2 ↦ 12, c = 3 ↦ 13, d = 4 ↦ 14, e = 5 ↦ 15,
oldest to newest. -/
def fiveCache : CacheLRU :=
  (((((((CacheLRU.init (some 5)).put 1 11).2.put 2 12).2.put 3 13).2.put
    4 14).2.put 5 15).2)

/-! ### Lemmas about the index association list -/

theorem getIdx_isSome_iff (m : List (Nat × Nat)) (k : Nat) :
    (getIdx m k).isSome = true ↔ ∃ id, (k, id) ∈ m := by
  induction m with
  | nil => simp [getIdx]
  | cons p rest ih =>
    obtain ⟨k', v⟩ := p
    by_cases hk : k' = k
    · subst hk
      simp [getIdx]
    · simp only [getIdx, if_neg hk, ih, List.mem_cons]
      constructor
      · rintro ⟨id, hid⟩
        exact ⟨id, Or.inr hid⟩
      · rintro ⟨id, hid | hid⟩
        · cases hid
          exact absurd rfl hk
        · exact ⟨id, hid⟩

theorem getIdx_delIdx_self (m : List (Nat × Nat)) (k : Nat) :
    getIdx (delIdx m k) k = none := by
  induction m with
  | nil => rfl
  | cons p rest ih =>
    obtain ⟨k', v⟩ := p
    by_cases hk : k' = k
    · simpa [delIdx, hk] using ih
    · simpa [delIdx, getIdx, hk] using ih

theorem getIdx_delIdx_ne (m : List (Nat × Nat)) (k k' : Nat) (h : k ≠ k') :
    getIdx (delIdx m k') k = getIdx m k := by
  induction m with
  | nil => rfl
  | cons p rest ih =>
    obtain ⟨k₀, v⟩ := p
    by_cases hk : k₀ = k'
    · subst hk
      simp only [delIdx, List.filter_cons, getIdx]
      simp only [ne_eq, decide_not, decide_True, Bool.not_true, if_neg (Ne.symm h)]
      simpa [delIdx] using ih
    · by_cases hk2 : k₀ = k
      · subst hk2
        simp [delIdx, List.filter_cons, getIdx, hk]
      · simp only [delIdx, List.filter_cons] at *
        simp only [ne_eq, hk, decide_not]
        simpa [getIdx, hk2, hk] using ih

theorem setIdx_fresh (m : List (Nat × Nat)) (k v : Nat)
    (h : ∀ p ∈ m, p.1 ≠ k) : setIdx m k v = m ++ [(k, v)] := by
  induction m with
  | nil => rfl
  | cons p rest ih =>
    obtain ⟨k', v'⟩ := p
    have hk : k' ≠ k := h (k', v') (List.mem_cons_self _ _)
    simp only [setIdx, if_neg hk, List.cons_append]
    congr 1
    exact ih (fun q hq => h q (List.mem_cons_of_mem _ hq))

theorem getIdx_setIdx_self (m : List (Nat × Nat)) (k v : Nat) :
    getIdx (setIdx m k v) k = some v := by
  induction m with
  | nil => simp [setIdx, getIdx]
  | cons p rest ih =>
    obtain ⟨k', v'⟩ := p
    by_cases hk : k' = k
    · simp [setIdx, getIdx, hk]
    · simpa [setIdx, getIdx, hk] using ih

/-! ### Lemmas about heap updates -/

theorem modifyE_length (l : List Entry) (i : Nat) (f : Entry → Entry) :
    (modifyE l i f).length = l.length := by
  induction l generalizing i with
  | nil => rfl
  | cons e rest ih =>
    cases i with
    | zero => rfl
    | succ j => simpa [modifyE] using ih j

theorem getElem?_modifyE_self (l : List Entry) (i : Nat) (f : Entry → Entry) :
    (modifyE l i f)[i]? = (l[i]?).map f := by
  induction l generalizing i with
  | nil => simp [modifyE]
  | cons e rest ih =>
    cases i with
    | zero => simp [modifyE]
    | succ j => simpa [modifyE] using ih j

theorem getElem?_modifyE_ne (l : List Entry) (i j : Nat) (f : Entry → Entry)
    (h : j ≠ i) : (modifyE l i f)[j]? = l[j]? := by
  induction l generalizing i j with
  | nil => simp [modifyE]
  | cons e rest ih =>
    cases i with
    | zero =>
      cases j with
      | zero => exact absurd rfl h
      | succ j' => simp [modifyE]
    | succ i' =>
      cases j with
      | zero => simp [modifyE]
      | succ j' =>
        have : j' ≠ i' := fun hc => h (by simp [hc])
        simpa [modifyE] using ih i' j' this

theorem modifyE_append_left (l l' : List Entry) (i : Nat) (f : Entry → Entry)
    (h : i < l.length) : modifyE (l ++ l') i f = modifyE l i f ++ l' := by
  induction l generalizing i with
  | nil => simp at h
  | cons e rest ih =>
    cases i with
    | zero => rfl
    | succ j =>
      simp only [List.cons_append, modifyE]
      congr 1
      exact ih j (by simpa using h)

theorem modifyE_append_right (l : List Entry) (a : Entry) (f : Entry → Entry) :
    modifyE (l ++ [a]) l.length f = l ++ [f a] := by
  induction l with
  | nil => rfl
  | cons e rest ih => simpa [modifyE] using ih

theorem getIdx_mem (m : List (Nat × Nat)) (k id : Nat)
    (h : getIdx m k = some id) : (k, id) ∈ m := by
  induction m with
  | nil => simp [getIdx] at h
  | cons p rest ih =>
    obtain ⟨k', v⟩ := p
    by_cases hk : k' = k
    · subst hk
      simp only [getIdx, if_pos rfl] at h
      cases h
      exact List.mem_cons_self _ _
    · simp only [getIdx, if_neg hk] at h
      exact List.mem_cons_of_mem _ (ih h)

theorem getElem?_some_lt {l : List Entry} {i : Nat} {e : Entry}
    (h : l[i]? = some e) : i < l.length := by
  by_contra hlt
  rw [List.getElem?_eq_none (Nat.le_of_not_lt hlt)] at h
  exact Option.noConfusion h

/-! ### Frame lemmas: field writes touch only the heap -/

@[simp] theorem writeNewer_keysIdx (c : CacheLRU) (i : Nat) (v : Option Nat) :
    (writeNewer c i v).keysIdx = c.keysIdx := rfl

@[simp] theorem writeNewer_head (c : CacheLRU) (i : Nat) (v : Option Nat) :
    (writeNewer c i v).head = c.head := rfl

@[simp] theorem writeNewer_tail (c : CacheLRU) (i : Nat) (v : Option Nat) :
    (writeNewer c i v).tail = c.tail := rfl

@[simp] theorem writeNewer_currentSize (c : CacheLRU) (i : Nat) (v : Option Nat) :
    (writeNewer c i v).currentSize = c.currentSize := rfl

@[simp] theorem writeNewer_cacheSize (c : CacheLRU) (i : Nat) (v : Option Nat) :
    (writeNewer c i v).cacheSize = c.cacheSize := rfl

@[simp] theorem writeNewer_entries_length (c : CacheLRU) (i : Nat) (v : Option Nat) :
    (writeNewer c i v).entries.length = c.entries.length :=
  modifyE_length _ _ _

@[simp] theorem writeOlder_keysIdx (c : CacheLRU) (i : Nat) (v : Option Nat) :
    (writeOlder c i v).keysIdx = c.keysIdx := rfl

@[simp] theorem writeOlder_head (c : CacheLRU) (i : Nat) (v : Option Nat) :
    (writeOlder c i v).head = c.head := rfl

@[simp] theorem writeOlder_tail (c : CacheLRU) (i : Nat) (v : Option Nat) :
    (writeOlder c i v).tail = c.tail := rfl

@[simp] theorem writeOlder_currentSize (c : CacheLRU) (i : Nat) (v : Option Nat) :
    (writeOlder c i v).currentSize = c.currentSize := rfl

@[simp] theorem writeOlder_cacheSize (c : CacheLRU) (i : Nat) (v : Option Nat) :
    (writeOlder c i v).cacheSize = c.cacheSize := rfl

@[simp] theorem writeOlder_entries_length (c : CacheLRU) (i : Nat) (v : Option Nat) :
    (writeOlder c i v).entries.length = c.entries.length :=
  modifyE_length _ _ _

theorem shift_cacheSize (c : CacheLRU) : (c.shift).2.cacheSize = c.cacheSize := by
  cases hh : c.head with
  | none => simp [CacheLRU.shift, hh]
  | some hid =>
    cases he : c.entries[hid]? with
    | none => simp [CacheLRU.shift, hh, he]
    | some e0 =>
      cases hn : e0.newer with
      | none => simp [CacheLRU.shift, hh, he, hn]
      | some nid => simp [CacheLRU.shift, hh, he, hn]

theorem shift_currentSize (c : CacheLRU) :
    (c.shift).2.currentSize = c.currentSize := by
  cases hh : c.head with
  | none => simp [CacheLRU.shift, hh]
  | some hid =>
    cases he : c.entries[hid]? with
    | none => simp [CacheLRU.shift, hh, he]
    | some e0 =>
      cases hn : e0.newer with
      | none => simp [CacheLRU.shift, hh, he, hn]
      | some nid => simp [CacheLRU.shift, hh, he, hn]

theorem shiftTimes_cacheSize (n : Nat) (c : CacheLRU) :
    (shiftTimes n c).cacheSize = c.cacheSize := by
  induction n generalizing c with
  | zero => rfl
  | succ m ih => simpa [shiftTimes, shift_cacheSize] using ih (c.shift).2

theorem setLimit_cacheSize (c : CacheLRU) (v : Option Int) :
    (c.setLimit v).cacheSize =
      (match v with
       | none => minCacheSize
       | some n => if n < minCacheSize then minCacheSize else n) := by
  simp only [CacheLRU.setLimit]
  split <;> simp [shiftTimes_cacheSize]

/-! ### Lemmas about the chain states built by successive puts -/

theorem getIdx_append_left (l l' : List (Nat × Nat)) (k v : Nat)
    (h : getIdx l k = some v) : getIdx (l ++ l') k = some v := by
  induction l with
  | nil => simp [getIdx] at h
  | cons p rest ih =>
    obtain ⟨k', v'⟩ := p
    by_cases hk : k' = k
    · simpa [getIdx, hk] using h
    · simp only [getIdx, if_neg hk] at h ⊢
      exact ih h

theorem getIdx_append_right (l l' : List (Nat × Nat)) (k : Nat)
    (h : getIdx l k = none) : getIdx (l ++ l') k = getIdx l' k := by
  induction l with
  | nil => rfl
  | cons p rest ih =>
    obtain ⟨k', v'⟩ := p
    by_cases hk : k' = k
    · simp [getIdx, hk] at h
    · simp only [List.cons_append, getIdx, if_neg hk] at h ⊢
      exact ih h

theorem getIdx_range_map_none (m k : Nat) (hk : ¬ k < m) :
    getIdx ((List.range m).map (fun i => (i, i))) k = none := by
  cases hg : getIdx ((List.range m).map (fun i => (i, i))) k with
  | none => rfl
  | some v =>
    have hm := getIdx_mem _ _ _ hg
    simp only [List.mem_map, List.mem_range] at hm
    obtain ⟨i, hi, hiv⟩ := hm
    cases hiv
    omega

theorem getIdx_range_map (m k : Nat) (hk : k < m) :
    getIdx ((List.range m).map (fun i => (i, i))) k = some k := by
  induction m with
  | zero => omega
  | succ m' ih =>
    rw [List.range_succ, List.map_append]
    by_cases hk' : k < m'
    · exact getIdx_append_left _ _ _ _ (ih hk')
    · have hkm : k = m' := by omega
      subst hkm
      rw [getIdx_append_right _ _ _ (getIdx_range_map_none _ _ hk')]
      simp [getIdx]

theorem range_map_keys_fresh (m : Nat) :
    ∀ p ∈ (List.range m).map (fun i => (i, i)), p.1 ≠ m := by
  intro p hp
  simp only [List.mem_map, List.mem_range] at hp
  obtain ⟨i, hi, hip⟩ := hp
  cases hip
  omega

theorem modifyE_map_range (n i : Nat) (f : Nat → Entry) (g : Entry → Entry)
    (hi : i < n) :
    modifyE ((List.range n).map f) i g =
      (List.range n).map (fun j => if j = i then g (f j) else f j) := by
  induction n with
  | zero => omega
  | succ m ih =>
    rw [List.range_succ, List.map_append, List.map_append]
    by_cases him : i < m
    · rw [modifyE_append_left _ _ _ _ (by simpa using him), ih him]
      have : m ≠ i := by omega
      simp [this]
    · have him' : i = m := by omega
      subst him'
      simp only [List.map_cons, List.map_nil]
      have hright := modifyE_append_right ((List.range i).map f) (f i) g
      rw [List.length_map, List.length_range] at hright
      rw [hright]
      have hcong : ∀ j ∈ List.range i, (if j = i then g (f j) else f j) = f j := by
        intro j hj
        simp only [List.mem_range] at hj
        have hne : j ≠ i := by omega
        simp [hne]
      rw [List.map_congr_left hcong]
      simp

/-! ### Lemmas about `relink`, the promotion step of `get` -/

theorem relink_keysIdx (c : CacheLRU) (id : Nat) (e0 : Entry) :
    (relink c id e0).keysIdx = c.keysIdx := by
  unfold relink
  cases hn : e0.newer with
  | none => repeat' (split <;> simp)
  | some nid => repeat' (split <;> simp)

theorem relink_tail (c : CacheLRU) (id : Nat) (e0 : Entry) :
    (relink c id e0).tail = some id := by
  unfold relink
  cases hn : e0.newer with
  | none => repeat' (split <;> simp)
  | some nid => repeat' (split <;> simp)

theorem relink_entries_length (c : CacheLRU) (id : Nat) (e0 : Entry) :
    (relink c id e0).entries.length = c.entries.length := by
  unfold relink
  cases hn : e0.newer with
  | none => repeat' (split <;> simp)
  | some nid => repeat' (split <;> simp)

theorem dchainB_cons_intro (c : CacheLRU) (x : Nat) (e : Entry)
    (rest : List Nat) (prev p : Option Nat)
    (hp : p = some x) (he : c.entries[x]? = some e) (ho : e.older = prev)
    (hrest : dchainB c (some x) e.newer rest = true) :
    dchainB c prev p (x :: rest) = true := by
  simp [dchainB, hp, he, ho, hrest]

theorem dchainSeg_cons_intro (c : CacheLRU) (x : Nat) (e : Entry)
    (rest : List Nat) (prev p prevOut pOut : Option Nat)
    (hp : p = some x) (he : c.entries[x]? = some e) (ho : e.older = prev)
    (hrest : dchainSeg c (some x) e.newer rest prevOut pOut = true) :
    dchainSeg c prev p (x :: rest) prevOut pOut = true := by
  simp [dchainSeg, hp, he, ho, hrest]

theorem dchainB_frame (c c2 : CacheLRU) :
    ∀ (Z : List Nat) (prev p : Option Nat),
      dchainB c prev p Z = true →
      (∀ z ∈ Z, c2.entries[z]? = c.entries[z]?) →
      dchainB c2 prev p Z = true := by
  intro Z
  induction Z with
  | nil =>
    intro prev p h _
    simpa [dchainB] using h
  | cons x rest ih =>
    intro prev p h hfr
    simp only [dchainB, Bool.and_eq_true, decide_eq_true_eq] at h ⊢
    obtain ⟨hp, h2⟩ := h
    refine ⟨hp, ?_⟩
    cases he : c.entries[x]? with
    | none =>
      rw [he] at h2
      simp at h2
    | some e =>
      rw [he] at h2
      simp only [Bool.and_eq_true, decide_eq_true_eq] at h2
      simp only [hfr x (List.mem_cons_self _ _), he, Bool.and_eq_true,
        decide_eq_true_eq]
      exact ⟨h2.1, ih _ _ h2.2 (fun z hz => hfr z (List.mem_cons_of_mem _ hz))⟩

theorem dchainSeg_getLast (c : CacheLRU) :
    ∀ (Z : List Nat) (prev p prevOut pOut : Option Nat),
      dchainSeg c prev p Z prevOut pOut = true → Z ≠ [] →
      Z.getLast? = prevOut := by
  intro Z
  induction Z with
  | nil =>
    intro _ _ _ _ _ hne
    exact absurd rfl hne
  | cons x rest ih =>
    intro prev p prevOut pOut h _
    simp only [dchainSeg, Bool.and_eq_true, decide_eq_true_eq] at h
    obtain ⟨hp, h2⟩ := h
    cases he : c.entries[x]? with
    | none =>
      rw [he] at h2
      simp at h2
    | some e =>
      rw [he] at h2
      simp only [Bool.and_eq_true, decide_eq_true_eq] at h2
      cases rest with
      | nil =>
        have h3 := h2.2
        simp only [dchainSeg, Bool.and_eq_true, decide_eq_true_eq] at h3
        simpa [List.getLast?] using h3.1
      | cons y rest2 =>
        rw [List.getLast?_cons_cons]
        exact ih _ _ _ _ h2.2 (by simp)

theorem dchainB_split_at (c : CacheLRU) (id : Nat) :
    ∀ (ids : List Nat) (prev p : Option Nat),
      dchainB c prev p ids = true → id ∈ ids →
      ∃ L R pm e, ids = L ++ id :: R ∧
        dchainSeg c prev p L pm (some id) = true ∧
        c.entries[id]? = some e ∧ e.older = pm ∧
        dchainB c (some id) e.newer R = true := by
  intro ids
  induction ids with
  | nil =>
    intro _ _ _ h
    simp at h
  | cons x rest ih =>
    intro prev p h hmem
    simp only [dchainB, Bool.and_eq_true, decide_eq_true_eq] at h
    obtain ⟨hp, h2⟩ := h
    cases he : c.entries[x]? with
    | none =>
      rw [he] at h2
      simp at h2
    | some e =>
      rw [he] at h2
      simp only [Bool.and_eq_true, decide_eq_true_eq] at h2
      by_cases hx : x = id
      · subst hx
        exact ⟨[], rest, prev, e, rfl, by simp [dchainSeg, hp], he, h2.1, h2.2⟩
      · have hmem2 : id ∈ rest := by
          rcases List.mem_cons.mp hmem with h3 | h3
          · exact absurd h3.symm hx
          · exact h3
        obtain ⟨L, R, pm, e2, hids, hseg, he2, ho2, hch2⟩ := ih _ _ h2.2 hmem2
        refine ⟨x :: L, R, pm, e2, by rw [hids, List.cons_append], ?_, he2,
          ho2, hch2⟩
        exact dchainSeg_cons_intro c x e L prev p pm (some id) hp he h2.1 hseg

theorem dchainSeg_patch_last (c c2 : CacheLRU) (oid : Nat) (newNext : Option Nat)
    (hpatch : ∀ eo, c.entries[oid]? = some eo →
      c2.entries[oid]? = some { eo with newer := newNext }) :
    ∀ (L : List Nat) (prev p qOut : Option Nat),
      dchainSeg c prev p L (some oid) qOut = true → L ≠ [] → L.Nodup →
      (∀ x ∈ L, x ≠ oid → c2.entries[x]? = c.entries[x]?) →
      dchainSeg c2 prev p L (some oid) newNext = true := by
  intro L
  induction L with
  | nil =>
    intro _ _ _ _ hne _ _
    exact absurd rfl hne
  | cons x rest ih =>
    intro prev p qOut h _ hnd hfr
    simp only [dchainSeg, Bool.and_eq_true, decide_eq_true_eq] at h
    obtain ⟨hp, h2⟩ := h
    cases he : c.entries[x]? with
    | none =>
      rw [he] at h2
      simp at h2
    | some e =>
      rw [he] at h2
      simp only [Bool.and_eq_true, decide_eq_true_eq] at h2
      cases rest with
      | nil =>
        have h3 := h2.2
        simp only [dchainSeg, Bool.and_eq_true, decide_eq_true_eq] at h3
        have hx : x = oid := by
          injection h3.1
        subst hx
        refine dchainSeg_cons_intro c2 x { e with newer := newNext } []
          prev p (some x) newNext hp (hpatch e he) h2.1 ?_
        simp [dchainSeg]
      | cons y rest2 =>
        have hlast : (y :: rest2).getLast? = some oid :=
          dchainSeg_getLast c _ _ _ _ _ h2.2 (by simp)
        have hmemo : oid ∈ y :: rest2 := List.mem_of_getLast?_eq_some hlast
        have hxo : x ≠ oid := fun hc => (List.nodup_cons.mp hnd).1 (hc ▸ hmemo)
        have hex : c2.entries[x]? = some e := by
          rw [hfr x (List.mem_cons_self _ _) hxo, he]
        exact dchainSeg_cons_intro c2 x e (y :: rest2) prev p (some oid)
          newNext hp hex h2.1
          (ih _ _ _ h2.2 (by simp) (List.nodup_cons.mp hnd).2
            (fun z hz hzo => hfr z (List.mem_cons_of_mem _ hz) hzo))

theorem dchainSeg_append_dchainB (c : CacheLRU) :
    ∀ (L M : List Nat) (prev p pm qm : Option Nat),
      dchainSeg c prev p L pm qm = true →
      dchainB c pm qm M = true →
      dchainB c prev p (L ++ M) = true := by
  intro L
  induction L with
  | nil =>
    intro M prev p pm qm hseg hch
    simp only [dchainSeg, Bool.and_eq_true, decide_eq_true_eq] at hseg
    obtain ⟨h1, h2⟩ := hseg
    subst h1
    subst h2
    simpa using hch
  | cons x rest ih =>
    intro M prev p pm qm hseg hch
    simp only [dchainSeg, Bool.and_eq_true, decide_eq_true_eq] at hseg
    obtain ⟨hp, h2⟩ := hseg
    cases he : c.entries[x]? with
    | none =>
      rw [he] at h2
      simp at h2
    | some e =>
      rw [he] at h2
      simp only [Bool.and_eq_true, decide_eq_true_eq] at h2
      simp only [List.cons_append, dchainB, Bool.and_eq_true,
        decide_eq_true_eq, he]
      exact ⟨hp, h2.1, ih _ _ _ _ _ h2.2 hch⟩

/-! ### Claim theorems -/

theorem getE_twice (c : CacheLRU) (k : Nat) :
    ((c.getE k).2).getE k = ((c.getE k).1, (c.getE k).2) := by
  cases hidx : getIdx c.keysIdx k with
  | none => simp [CacheLRU.getE, hidx]
  | some id =>
    cases he : c.entries[id]? with
    | none => simp [CacheLRU.getE, hidx, he]
    | some e0 =>
      by_cases ht : some id = c.tail
      · simp [CacheLRU.getE, hidx, he, if_pos ht]
      · have h1 : c.getE k = (some id, relink c id e0) := by
          simp [CacheLRU.getE, hidx, he, if_neg ht]
        rw [h1]
        have hidx2 : getIdx (relink c id e0).keysIdx k = some id := by
          rw [relink_keysIdx]
          exact hidx
        have hlt : id < (relink c id e0).entries.length := by
          rw [relink_entries_length]
          exact getElem?_some_lt he
        obtain ⟨e2, he2⟩ : ∃ e2, (relink c id e0).entries[id]? = some e2 :=
          ⟨_, List.getElem?_eq_getElem hlt⟩
        simp [CacheLRU.getE, hidx2, he2, relink_tail]

/-- C1: the spec's capacity invariant — `count` never exceeds `capacity`
after any call returns — fails on the code.  Concretely: fill a
capacity-5 cache with five entries, assign `limit = 3` (which evicts
two entries via `shift`, leaving 3), then `put` a sixth key.  Because
`shift` never decrements `_currentSize`, the setter leaves
`_currentSize = 5`, the new `put` compares `5 ≠ 3` and skips eviction,
and the cache ends holding 4 entries with capacity 3 — with the
internal counter at 6, so no later `put` ever evicts again. -/
theorem count_exceeds_capacity_after_shrink :
    (((fiveCache.setLimit (some 3)).put 6 16).2.count = 4 ∧
      ((fiveCache.setLimit (some 3)).put 6 16).2.cacheSize = 3) ∧
      ((fiveCache.setLimit (some 3)).put 6 16).2.currentSize = 6 ∧
      (3 : Int) < (((fiveCache.setLimit (some 3)).put 6 16).2.count : Int) := by
  decide

/-- C3: on the capacity-5 cache holding [a,b,c,d,e] (keys 1..5) oldest
to newest, `limit = 3` clamps to 3, evicts exactly a and b, and leaves
the three entries [c,d,e] with c (key 3, entry id 2) the oldest: keys
1 and 2 are gone from the index, keys 3, 4, 5 keep their values, the
head-to-tail walk is the ids of c, d, e, and the cache holds exactly 3
entries with capacity 3. -/
theorem shrink_limit_evicts_oldest_two :
    (fiveCache.setLimit (some 3)).cacheSize = 3 ∧
      (fiveCache.setLimit (some 3)).isSet 1 = none ∧
      (fiveCache.setLimit (some 3)).isSet 2 = none ∧
      peek (fiveCache.setLimit (some 3)) 3 = some 13 ∧
      peek (fiveCache.setLimit (some 3)) 4 = some 14 ∧
      peek (fiveCache.setLimit (some 3)) 5 = some 15 ∧
      walk (fiveCache.setLimit (some 3)) = [2, 3, 4] ∧
      keyAt (fiveCache.setLimit (some 3)) 2 = some 3 ∧
      (fiveCache.setLimit (some 3)).head = some 2 ∧
      (fiveCache.setLimit (some 3)).count = 3 := by
  decide

/-- C4: on a fresh capacity-2 cache, `put(10,1); put(20,2); get(10);
put(30,3)`: the `get` returns 1 and promotes key 10 (entry id 0) to the
tail; the final `put` evicts key 20 (the least recent, entry id 1,
returned as the evicted entry); the cache then holds exactly the pairs
10 ↦ 1 and 30 ↦ 3. -/
theorem lru_scenario_capacity_two :
    ((((CacheLRU.init (some 2)).put 10 1).2.put 20 2).2.get 10).1 = some 1 ∧
      ((((CacheLRU.init (some 2)).put 10 1).2.put 20 2).2.get 10).2.tail = some 0 ∧
      (((((CacheLRU.init (some 2)).put 10 1).2.put 20 2).2.get 10).2.put 30 3).1 =
        some 1 ∧
      keyAt (((((CacheLRU.init (some 2)).put 10 1).2.put 20 2).2.get
        10).2.put 30 3).2 1 = some 20 ∧
      (((((CacheLRU.init (some 2)).put 10 1).2.put 20 2).2.get 10).2.put
        30 3).2.isSet 20 = none ∧
      peek (((((CacheLRU.init (some 2)).put 10 1).2.put 20 2).2.get
        10).2.put 30 3).2 10 = some 1 ∧
      peek (((((CacheLRU.init (some 2)).put 10 1).2.put 20 2).2.get
        10).2.put 30 3).2 30 = some 3 ∧
      (((((CacheLRU.init (some 2)).put 10 1).2.put 20 2).2.get 10).2.put
        30 3).2.count = 2 := by
  decide

/-- C8: `isSet` returns the raw index lookup — so it is literally the
test of the index — and its truthiness reports exactly whether the key
is bound in the index; being a read of `_keys` alone, it performs no
promotion and leaves every component of the state untouched. -/
theorem isSet_is_pure_index_test (c : CacheLRU) (k : Nat) :
    c.isSet k = getIdx c.keysIdx k ∧
      ((c.isSet k).isSome = true ↔ ∃ id, (k, id) ∈ c.keysIdx) := by
  exact ⟨rfl, getIdx_isSome_iff c.keysIdx k⟩

/-- C2: capacity configuration never signals an error and clamps to the
floor.  For every constructor input and every `limit` assignment — on
any cache state `c`, including one whose current count exceeds the new
limit, where the setter additionally runs its eviction loop — the
computation completes with a capacity of at least 2, and a malformed
input (NaN/non-finite parse, or a value below the floor 2) yields
exactly the floor 2.  The embedding of both paths is total because the
source has no throwing statement on them (given its `_.times`
dependency, which the `limit` setter uses for the eviction loop). -/
theorem capacity_clamped_never_below_floor (v : Option Int) (c : CacheLRU) :
    2 ≤ (CacheLRU.init v).cacheSize ∧ 2 ≤ (c.setLimit v).cacheSize ∧
      (malformedCap v →
        (CacheLRU.init v).cacheSize = 2 ∧ (c.setLimit v).cacheSize = 2) := by
  have hmax : (2 : Int) ≤ maxNumberValue := by decide
  have hinit : (CacheLRU.init v).cacheSize =
      toNumber v minCacheSize minCacheSize maxNumberValue := rfl
  have hset := setLimit_cacheSize c v
  refine ⟨?_, ?_, fun hm => ⟨?_, ?_⟩⟩
  · rw [hinit]
    cases v with
    | none => norm_num [toNumber, minCacheSize]
    | some n =>
      simp only [toNumber, minCacheSize]
      split
      · exact hmax
      · split
        · norm_num
        · omega
  · rw [hset]
    cases v with
    | none => norm_num [minCacheSize]
    | some n =>
      simp only [minCacheSize]
      split
      · norm_num
      · omega
  · rw [hinit]
    cases v with
    | none => rfl
    | some n =>
      have hn : n < 2 := hm
      have hnm : ¬ n > maxNumberValue := by omega
      simp [toNumber, minCacheSize, hnm, hn]
  · rw [hset]
    cases v with
    | none => rfl
    | some n =>
      have hn : n < 2 := hm
      simp [minCacheSize, hn]

theorem capacity_clamped_never_below_floor_witness :
    2 ≤ (CacheLRU.init (some 0)).cacheSize ∧
      2 ≤ (fiveCache.setLimit (some 0)).cacheSize ∧
      (malformedCap (some 0) →
        (CacheLRU.init (some 0)).cacheSize = 2 ∧
          (fiveCache.setLimit (some 0)).cacheSize = 2) :=
  capacity_clamped_never_below_floor (some 0) fiveCache

/-- C6: promotion by `get` is idempotent — on every state (in
particular whenever `k` is present), a second `get k` right after a
first one returns the same result and leaves the state exactly as the
first call left it, because the first call either found the entry at
the tail already or moved it there, so the second call takes the
early-return branch and performs no relinking at all; hence the
head-to-tail order after two calls is the order after one. -/
theorem get_twice_equals_once (c : CacheLRU) (k : Nat) :
    ((c.get k).2).get k = ((c.get k).1, (c.get k).2) := by
  have h := getE_twice c k
  simp only [CacheLRU.get]
  rw [h]

/-- C7: `remove` on a present key returns exactly the stored value
(`peek` is that lookup; the absent sentinel when the key is absent),
deletes the key from the index so that a subsequent `contains`/`isSet`
reports false, decrements `_currentSize`, and unlinks the entry from
the doubly-linked order in all four positional cases — interior, head,
tail, and sole entry: if the order list was `ids`, it is exactly
`ids.erase id` afterwards, with `head`, `tail` and the neighbour links
patched accordingly; removing an absent key returns the sentinel and
leaves the whole state untouched.  The hypotheses — `idxOk`,
`dOrderedAs` (the spec's mutually consistent doubly-linked order),
`Nodup`, `idxOnChain` — hold in every state the JS code can reach. -/
theorem remove_correct (c : CacheLRU) (k : Nat) (ids : List Nat)
    (hw : idxOk c) (hord : dOrderedAs c ids) (hnd : ids.Nodup)
    (hoc : idxOnChain c k ids) :
    (c.remove k).1 = peek c k ∧
      ((c.remove k).2).isSet k = none ∧
      ((c.remove k).2).currentSize =
        (if (c.isSet k).isSome then c.currentSize - 1 else c.currentSize) ∧
      (c.isSet k = none → c.remove k = (none, c)) ∧
      dOrderedAs ((c.remove k).2) ((c.isSet k).elim ids ids.erase) := by
  obtain ⟨hch, htl⟩ := hord
  cases hidx : getIdx c.keysIdx k with
  | none =>
    have hr : c.remove k = (none, c) := by
      simp [CacheLRU.remove, hidx]
    have hset : c.isSet k = none := hidx
    refine ⟨?_, ?_, ?_, fun _ => hr, ?_⟩
    · rw [hr]
      simp [peek, hidx]
    · rw [hr]
      simp [CacheLRU.isSet, hidx]
    · rw [hr]
      simp [CacheLRU.isSet, hidx]
    · rw [hr, hset]
      exact ⟨hch, htl⟩
  | some id =>
    have hkey := hw _ (getIdx_mem _ _ _ hidx)
    cases he : c.entries[id]? with
    | none =>
      rw [he] at hkey
      simp at hkey
    | some e =>
      rw [he] at hkey
      have hek : e.key = k := by
        simpa using hkey
      have hset : c.isSet k = some id := hidx
      have hmem : id ∈ ids := by
        have h5 := hoc
        simp only [idxOnChain, hidx] at h5
        exact h5
      obtain ⟨L, R, pm, e2, hids, hseg, he2, ho2, hchR⟩ :=
        dchainB_split_at c id ids none c.head hch hmem
      have hee : e2 = e := by
        rw [he] at he2
        injection he2 with h6
        exact h6.symm
      subst hee
      subst hids
      have hnda := List.nodup_append.mp hnd
      have hidL : id ∉ L := fun hin => (hnda.2.2 hin) (List.mem_cons_self _ _)
      have hRnd : R.Nodup := (List.nodup_cons.mp hnda.2.1).2
      have hidR : id ∉ R := (List.nodup_cons.mp hnda.2.1).1
      have herase : (L ++ id :: R).erase id = L ++ R := by
        rw [List.erase_append_right _ hidL, List.erase_cons_head]
      have hfst : (c.remove k).1 = some e2.value := by
        cases hn : e2.newer <;> cases ho : e2.older <;>
          simp [CacheLRU.remove, hidx, he, hn, ho]
      have hkey2 : ((c.remove k).2).keysIdx = delIdx c.keysIdx k := by
        cases hn : e2.newer <;> cases ho : e2.older <;>
          simp [CacheLRU.remove, hidx, he, hn, ho, hek]
      have hsize : ((c.remove k).2).currentSize = c.currentSize - 1 := by
        cases hn : e2.newer <;> cases ho : e2.older <;>
          simp [CacheLRU.remove, hidx, he, hn, ho]
      refine ⟨?_, ?_, ?_, ?_, ?_⟩
      · rw [hfst]
        simp [peek, hidx, he]
      · simp [CacheLRU.isSet, hkey2, getIdx_delIdx_self]
      · simp [CacheLRU.isSet, hidx, hsize]
      · intro hfalse
        rw [hset] at hfalse
        cases hfalse
      rw [hset]
      simp only [Option.elim]
      rw [herase]
      cases R with
      | nil =>
        have hnew : e2.newer = none := by
          simpa [dchainB] using hchR
        cases L with
        | nil =>
          have hsn := hseg
          simp only [dchainSeg, Bool.and_eq_true, decide_eq_true_eq] at hsn
          have hold : e2.older = none := by
            rw [ho2, ← hsn.1]
          have hhead : ((c.remove k).2).head = none := by
            simp [CacheLRU.remove, hidx, he, hnew, hold]
          have htail2 : ((c.remove k).2).tail = none := by
            simp [CacheLRU.remove, hidx, he, hnew, hold]
          refine ⟨?_, ?_⟩
          · rw [hhead]
            simp [dchainB]
          · rw [htail2]
            simp
        | cons l0 L0 =>
          have hLne : l0 :: L0 ≠ [] := by simp
          have hgl : (l0 :: L0).getLast? = pm :=
            dchainSeg_getLast c _ _ _ _ _ hseg hLne
          obtain ⟨oid, hoid⟩ : ∃ oid, pm = some oid := by
            cases hpm : pm with
            | none =>
              rw [hpm] at hgl
              simp at hgl
            | some w => exact ⟨w, rfl⟩
          subst hoid
          have hold : e2.older = some oid := ho2
          have hent : ((c.remove k).2).entries =
              modifyE c.entries oid (fun e3 => { e3 with newer := none }) := by
            simp [CacheLRU.remove, hidx, he, hnew, hold, writeNewer]
          have hhead : ((c.remove k).2).head = c.head := by
            simp [CacheLRU.remove, hidx, he, hnew, hold, writeNewer]
          have htail2 : ((c.remove k).2).tail = some oid := by
            simp [CacheLRU.remove, hidx, he, hnew, hold, writeNewer]
          have hsegp := dchainSeg_patch_last c ((c.remove k).2) oid none
            (fun eo heo => by
              rw [hent, getElem?_modifyE_self, heo]
              rfl)
            (l0 :: L0) none c.head (some id) hseg hLne hnda.1
            (fun x hx hxo => by
              rw [hent, getElem?_modifyE_ne _ _ _ _ hxo])
          have hfin := dchainSeg_append_dchainB ((c.remove k).2)
            (l0 :: L0) [] none c.head (some oid) none hsegp
            (by simp [dchainB])
          refine ⟨?_, ?_⟩
          · rw [hhead]
            simpa using hfin
          · rw [htail2]
            simpa using hgl.symm
      | cons r0 R0 =>
        have hchR2 := hchR
        simp only [dchainB, Bool.and_eq_true, decide_eq_true_eq] at hchR2
        obtain ⟨hnew, hrest⟩ := hchR2
        cases her0 : c.entries[r0]? with
        | none =>
          rw [her0] at hrest
          simp at hrest
        | some er0 =>
          rw [her0] at hrest
          simp only [Bool.and_eq_true, decide_eq_true_eq] at hrest
          obtain ⟨holdr0, hR0⟩ := hrest
          have hr0R0 : r0 ∉ R0 := (List.nodup_cons.mp hRnd).1
          have hR0nd : R0.Nodup := (List.nodup_cons.mp hRnd).2
          have hr0id : r0 ≠ id := fun hc => hidR (hc ▸ List.mem_cons_self _ _)
          cases L with
          | nil =>
            have hsn := hseg
            simp only [dchainSeg, Bool.and_eq_true, decide_eq_true_eq] at hsn
            have hold : e2.older = none := by
              rw [ho2, ← hsn.1]
            have hent : ((c.remove k).2).entries =
                modifyE c.entries r0 (fun e3 => { e3 with older := none }) := by
              simp [CacheLRU.remove, hidx, he, hnew, hold, writeOlder]
            have hhead : ((c.remove k).2).head = some r0 := by
              simp [CacheLRU.remove, hidx, he, hnew, hold, writeOlder]
            have htail2 : ((c.remove k).2).tail = c.tail := by
              simp [CacheLRU.remove, hidx, he, hnew, hold, writeOlder]
            refine ⟨?_, ?_⟩
            · rw [hhead]
              simp only [List.nil_append]
              refine dchainB_cons_intro ((c.remove k).2) r0
                { er0 with older := none } R0 none (some r0) rfl ?_ rfl ?_
              · rw [hent, getElem?_modifyE_self, her0]
                rfl
              · refine dchainB_frame c ((c.remove k).2) R0 (some r0)
                  er0.newer hR0 ?_
                intro z hz
                have hzr0 : z ≠ r0 := fun hc => hr0R0 (hc ▸ hz)
                rw [hent, getElem?_modifyE_ne _ _ _ _ hzr0]
            · rw [htail2, htl]
              simp [List.getLast?_cons_cons]
          | cons l0 L0 =>
            have hLne : l0 :: L0 ≠ [] := by simp
            have hgl : (l0 :: L0).getLast? = pm :=
              dchainSeg_getLast c _ _ _ _ _ hseg hLne
            obtain ⟨oid, hoid⟩ : ∃ oid, pm = some oid := by
              cases hpm : pm with
              | none =>
                rw [hpm] at hgl
                simp at hgl
              | some w => exact ⟨w, rfl⟩
            subst hoid
            have hold : e2.older = some oid := ho2
            have hoidL : oid ∈ l0 :: L0 :=
              List.mem_of_getLast?_eq_some hgl
            have hoidid : oid ≠ id := fun hc => hidL (hc ▸ hoidL)
            have hoidr0 : oid ≠ r0 := by
              intro hc
              exact (hnda.2.2 hoidL) (hc ▸ List.mem_cons_of_mem _
                (List.mem_cons_self _ _))
            have hent : ((c.remove k).2).entries =
                modifyE (modifyE c.entries oid
                  (fun e3 => { e3 with newer := some r0})) r0
                  (fun e3 => { e3 with older := some oid }) := by
              simp [CacheLRU.remove, hidx, he, hnew, hold, writeNewer,
                writeOlder]
            have hhead : ((c.remove k).2).head = c.head := by
              simp [CacheLRU.remove, hidx, he, hnew, hold, writeNewer,
                writeOlder]
            have htail2 : ((c.remove k).2).tail = c.tail := by
              simp [CacheLRU.remove, hidx, he, hnew, hold, writeNewer,
                writeOlder]
            have hsegp := dchainSeg_patch_last c ((c.remove k).2) oid (some r0)
              (fun eo heo => by
                rw [hent, getElem?_modifyE_ne _ _ _ _ hoidr0,
                  getElem?_modifyE_self, heo]
                rfl)
              (l0 :: L0) none c.head (some id) hseg hLne hnda.1
              (fun x hx hxo => by
                have hxr0 : x ≠ r0 := fun hc => (hnda.2.2 hx)
                  (hc ▸ List.mem_cons_of_mem _ (List.mem_cons_self _ _))
                rw [hent, getElem?_modifyE_ne _ _ _ _ hxr0,
                  getElem?_modifyE_ne _ _ _ _ hxo])
            have hM : dchainB ((c.remove k).2) (some oid) (some r0)
                (r0 :: R0) = true := by
              refine dchainB_cons_intro ((c.remove k).2) r0
                { er0 with older := some oid } R0 (some oid) (some r0)
                rfl ?_ rfl ?_
              · rw [hent, getElem?_modifyE_self,
                  getElem?_modifyE_ne _ _ _ _ (fun hc => hoidr0 hc.symm), her0]
                rfl
              · refine dchainB_frame c ((c.remove k).2) R0 (some r0)
                  er0.newer hR0 ?_
                intro z hz
                have hzr0 : z ≠ r0 := fun hc => hr0R0 (hc ▸ hz)
                have hzoid : z ≠ oid := fun hc => (hnda.2.2 hoidL)
                  (hc ▸ List.mem_cons_of_mem _ (List.mem_cons_of_mem _ hz))
                rw [hent, getElem?_modifyE_ne _ _ _ _ hzr0,
                  getElem?_modifyE_ne _ _ _ _ hzoid]
            have hfin := dchainSeg_append_dchainB ((c.remove k).2)
              (l0 :: L0) (r0 :: R0) none c.head (some oid) (some r0) hsegp hM
            refine ⟨?_, ?_⟩
            · rw [hhead]
              exact hfin
            · rw [htail2, htl]
              rw [List.getLast?_append_cons, List.getLast?_append_cons,
                List.getLast?_cons_cons]

theorem remove_correct_witness :
    (fiveCache.remove 3).1 = peek fiveCache 3 ∧
      ((fiveCache.remove 3).2).isSet 3 = none ∧
      ((fiveCache.remove 3).2).currentSize =
        (if (fiveCache.isSet 3).isSome then fiveCache.currentSize - 1
         else fiveCache.currentSize) ∧
      (fiveCache.isSet 3 = none → fiveCache.remove 3 = (none, fiveCache)) ∧
      dOrderedAs ((fiveCache.remove 3).2)
        ((fiveCache.isSet 3).elim [0, 1, 2, 3, 4] [0, 1, 2, 3, 4].erase) :=
  remove_correct fiveCache 3 [0, 1, 2, 3, 4] (by decide) (by decide)
    (by decide) (by decide)

/-- C10: on a cache whose head references a live entry `e`, `shift`
(`evictOldest`) returns that head, advances `head` to `e.newer`, clears
the evicted entry's links, and deletes its key from the index — but
leaves the internal `_currentSize` counter exactly as it was: unlike
`remove`, it performs no decrement. -/
theorem shift_unlinks_head_without_count_decrement (c : CacheLRU) (hid : Nat)
    (e : Entry) (hh : c.head = some hid) (he : c.entries[hid]? = some e) :
    (c.shift).1 = some hid ∧
      (c.shift).2.currentSize = c.currentSize ∧
      (c.shift).2.head = e.newer ∧
      getIdx (c.shift).2.keysIdx e.key = none ∧
      (c.shift).2.entries[hid]? = some { e with newer := none, older := none } := by
  cases hn : e.newer with
  | none =>
    refine ⟨?_, ?_, ?_, ?_, ?_⟩ <;>
      simp [CacheLRU.shift, hh, he, hn, writeOlder, writeNewer,
        getIdx_delIdx_self, getElem?_modifyE_self]
  | some nid =>
    by_cases hnid : nid = hid
    · subst hnid
      refine ⟨?_, ?_, ?_, ?_, ?_⟩ <;>
        simp [CacheLRU.shift, hh, he, hn, writeOlder, writeNewer,
          getIdx_delIdx_self, getElem?_modifyE_self]
    · refine ⟨?_, ?_, ?_, ?_, ?_⟩ <;>
        simp [CacheLRU.shift, hh, he, hn, writeOlder, writeNewer,
          getIdx_delIdx_self, getElem?_modifyE_self,
          getElem?_modifyE_ne _ _ _ _ (fun hc => hnid hc.symm)]

theorem shift_unlinks_head_without_count_decrement_witness :
    (fiveCache.shift).1 = some 0 ∧
      (fiveCache.shift).2.currentSize = fiveCache.currentSize ∧
      (fiveCache.shift).2.head = some 1 ∧
      getIdx (fiveCache.shift).2.keysIdx 1 = none ∧
      (fiveCache.shift).2.entries[0]? = some ⟨1, 11, none, none⟩ :=
  shift_unlinks_head_without_count_decrement fiveCache 0 ⟨1, 11, some 1, none⟩
    (by decide) (by decide)

theorem chainEntry_step (m j : Nat) (hj : j < m + 1) :
    (if j = m then { chainEntry (m + 1) j with newer := some (m + 1) }
     else chainEntry (m + 1) j) = chainEntry (m + 2) j := by
  unfold chainEntry
  by_cases h : j = m
  · subst h
    have h1 : ¬ j + 1 < j + 1 := by omega
    have h2 : j + 1 < j + 2 := by omega
    simp [h1, h2]
  · have hj' : j < m := by omega
    have h1 : j + 1 < m + 1 := by omega
    have h2 : j + 1 < m + 2 := by omega
    simp [h, h1, h2]

theorem put_chainState (cap : Int) (n : Nat) (hne : (n : Int) ≠ cap) :
    (chainState cap n).put n n = (none, chainState cap (n + 1)) := by
  cases n with
  | zero =>
    simp only [CacheLRU.put, chainState, chainEntry, setIdx]
    norm_num
    rw [if_neg (by exact_mod_cast hne)]
    simp [List.range_succ, chainEntry]
  | succ m =>
    simp only [CacheLRU.put, chainState, writeNewer, writeOlder,
      List.length_append, List.length_map, List.length_range,
      Nat.succ_ne_zero, if_false]
    rw [if_neg hne]
    have hm1 : m + 1 - 1 = m := by omega
    rw [hm1]
    rw [modifyE_append_left _ _ m _ (by simp)]
    rw [modifyE_map_range (m + 1) m _ _ (by omega)]
    rw [List.map_congr_left (fun j hj => chainEntry_step m j (by simpa using hj))]
    have hright := modifyE_append_right ((List.range (m + 1)).map (chainEntry (m + 2)))
      ({ key := m + 1, value := m + 1, newer := none, older := none })
      (fun e => { key := e.key, value := e.value, newer := e.newer, older := some m })
    rw [List.length_map, List.length_range] at hright
    rw [hright]
    rw [setIdx_fresh _ _ _ (range_map_keys_fresh (m + 1))]
    simp [List.range_succ, chainEntry]

theorem init_eq_chainState (capn : Nat) (h2 : 2 ≤ capn)
    (hM : (capn : Int) ≤ maxNumberValue) :
    CacheLRU.init (some capn) = chainState (capn : Int) 0 := by
  unfold CacheLRU.init chainState toNumber
  have h1 : ¬ ((capn : Int) > maxNumberValue) := by omega
  have h2' : ¬ ((capn : Int) < minCacheSize) := by
    simp only [minCacheSize]
    have : (2 : Int) ≤ (capn : Int) := by exact_mod_cast h2
    omega
  simp [h1, h2']

theorem putN_chain (capn : Nat) (h2 : 2 ≤ capn)
    (hM : (capn : Int) ≤ maxNumberValue) :
    ∀ n, n ≤ capn → putN (CacheLRU.init (some capn)) n = chainState (capn : Int) n := by
  intro n
  induction n with
  | zero => exact fun _ => init_eq_chainState capn h2 hM
  | succ m ih =>
    intro hle
    have hne : (m : Int) ≠ (capn : Int) := by
      have : m < capn := by omega
      exact_mod_cast Nat.ne_of_lt this
    rw [putN, ih (by omega), put_chainState _ _ hne]

theorem put_at_capacity (m : Nat) :
    (chainState ((m + 2 : Nat) : Int) (m + 2)).put (m + 2) (m + 2) =
      CacheLRU.shift
        { entries := (List.range (m + 3)).map (chainEntry (m + 3))
          keysIdx := (List.range (m + 3)).map (fun i => (i, i))
          head := some 0
          tail := some (m + 2)
          currentSize := ((m + 2 : Nat) : Int)
          cacheSize := ((m + 2 : Nat) : Int) } := by
  simp only [CacheLRU.put, chainState, writeNewer, writeOlder,
    List.length_append, List.length_map, List.length_range,
    Nat.succ_ne_zero, if_false, if_true]
  have hm1 : m + 2 - 1 = m + 1 := by omega
  rw [hm1]
  rw [modifyE_append_left _ _ (m + 1) _ (by simp)]
  rw [modifyE_map_range (m + 2) (m + 1) _ _ (by omega)]
  rw [List.map_congr_left (fun j hj => chainEntry_step (m + 1) j (by simpa using hj))]
  have hright := modifyE_append_right ((List.range (m + 2)).map (chainEntry (m + 3)))
    ({ key := m + 2, value := m + 2, newer := none, older := none })
    (fun e => { key := e.key, value := e.value, newer := e.newer, older := some (m + 1) })
  rw [List.length_map, List.length_range] at hright
  rw [hright]
  rw [setIdx_fresh _ _ _ (range_map_keys_fresh (m + 2))]
  have hr3 : List.range (m + 3) = List.range (m + 2) ++ [m + 2] := by
    have h32 : m + 3 = (m + 2) + 1 := by omega
    rw [h32, List.range_succ]
  rw [hr3, List.map_append, List.map_append]
  simp [chainEntry]

/-- C5: for every capacity `cap` with `2 ≤ cap` (and `cap` within the
double range the constructor accepts), filling a fresh cache with the
`cap` distinct keys `0, …, cap-1` by `put` and then putting one more
distinct key `cap`, with no intervening access, evicts exactly the
first-inserted key: the final `put` returns the very entry the first
`put` created (heap id 0, key 0, value 0, links cleared by `shift`),
key 0 is afterwards absent from the index, and each of the other `cap`
keys `1, …, cap` is still present with its value. -/
theorem put_over_capacity_evicts_first (capn : Nat) (h2 : 2 ≤ capn)
    (hM : (capn : Int) ≤ maxNumberValue) :
    (((putN (CacheLRU.init (some capn)) capn).put capn capn).1 = some 0) ∧
      ((putN (CacheLRU.init (some capn)) capn).put capn capn).2.entries[0]? =
        some { key := 0, value := 0, newer := none, older := none } ∧
      getIdx ((putN (CacheLRU.init (some capn)) capn).put capn capn).2.keysIdx 0 =
        none ∧
      (((List.range capn).map (fun i => i + 1)).all
        (fun k =>
          getIdx ((putN (CacheLRU.init (some capn)) capn).put capn capn).2.keysIdx k
            == some k)) = true := by
  rw [putN_chain capn h2 hM capn (le_refl capn)]
  obtain ⟨m, rfl⟩ : ∃ m, capn = m + 2 := ⟨capn - 2, by omega⟩
  clear h2 hM
  rw [put_at_capacity m]
  have h0 : ((List.range (m + 3)).map (chainEntry (m + 3)))[0]? =
      some (chainEntry (m + 3) 0) := by
    rw [List.getElem?_map, List.getElem?_range (by omega : 0 < m + 3)]
    rfl
  have hce : chainEntry (m + 3) 0 =
      { key := 0, value := 0, newer := some 1, older := none } := by
    have h13 : 0 + 1 < m + 3 := by omega
    simp [chainEntry, h13]
  rw [hce] at h0
  simp only [CacheLRU.shift, h0, writeNewer, writeOlder]
  refine ⟨trivial, ?_, ?_, ?_⟩
  · rw [getElem?_modifyE_self, getElem?_modifyE_self,
      getElem?_modifyE_ne _ _ _ _ (by omega : (0 : Nat) ≠ 1), h0]
    rfl
  · exact getIdx_delIdx_self _ 0
  · rw [List.all_eq_true]
    intro x hx
    simp only [List.mem_map, List.mem_range] at hx
    obtain ⟨i, hi, rfl⟩ := hx
    rw [getIdx_delIdx_ne _ _ _ (by omega), getIdx_range_map _ _ (by omega)]
    simp


theorem put_over_capacity_evicts_first_witness :
    (2 ≤ 2 ∧ ((2 : Nat) : Int) ≤ maxNumberValue) ∧
      ((((putN (CacheLRU.init (some 2)) 2).put 2 2).1 = some 0) ∧
        ((putN (CacheLRU.init (some 2)) 2).put 2 2).2.entries[0]? =
          some { key := 0, value := 0, newer := none, older := none } ∧
        getIdx ((putN (CacheLRU.init (some 2)) 2).put 2 2).2.keysIdx 0 = none ∧
        (((List.range 2).map (fun i => i + 1)).all
          (fun k =>
            getIdx ((putN (CacheLRU.init (some 2)) 2).put 2 2).2.keysIdx k
              == some k)) = true) :=
  ⟨⟨by decide, by decide⟩,
    put_over_capacity_evicts_first 2 (by decide) (by decide)⟩

theorem chainB_mem_live (c : CacheLRU) :
    ∀ (ids : List Nat) (p : Option Nat), chainB c p ids = true →
      ∀ id ∈ ids, ∃ e, c.entries[id]? = some e := by
  intro ids
  induction ids with
  | nil =>
    intro p h id hid
    simp at hid
  | cons x rest ih =>
    intro p h id hid
    simp only [chainB, Bool.and_eq_true, decide_eq_true_eq] at h
    obtain ⟨hp, hrest⟩ := h
    cases he : c.entries[x]? with
    | none =>
      rw [he] at hrest
      simp at hrest
    | some e =>
      rw [he] at hrest
      rcases List.mem_cons.mp hid with rfl | hid'
      · exact ⟨e, he⟩
      · exact ih e.newer hrest id hid'

theorem getElem?_append_single_ne (l : List Entry) (a : Entry) (i : Nat)
    (h : i ≠ l.length) : (l ++ [a])[i]? = l[i]? := by
  by_cases hi : i < l.length
  · exact List.getElem?_append_left hi
  · have h1 : l.length ≤ i := by omega
    have h2 : 1 ≤ i - l.length := by omega
    rw [List.getElem?_append_right h1]
    rw [List.getElem?_eq_none (by simpa using h2),
      List.getElem?_eq_none h1]

theorem chainB_extend (c c' : CacheLRU) (N t : Nat)
    (hents : ∀ id, id ≠ t → id ≠ N → c'.entries[id]? = c.entries[id]?)
    (hentt : ∀ e, c.entries[t]? = some e →
      c'.entries[t]? = some { e with newer := some N })
    (hentN : ∃ eN, c'.entries[N]? = some eN ∧ eN.newer = none)
    (hvalid : ∀ id e, c.entries[id]? = some e → id ≠ N) :
    ∀ (ids : List Nat) (p : Option Nat), chainB c p ids = true →
      ids.getLast? = some t → ids.Nodup →
      chainB c' p (ids ++ [N]) = true := by
  intro ids
  induction ids with
  | nil =>
    intro p _ hlast _
    simp at hlast
  | cons x rest ih =>
    intro p h hlast hnd
    simp only [chainB, Bool.and_eq_true, decide_eq_true_eq] at h
    obtain ⟨hp, hrest⟩ := h
    cases he : c.entries[x]? with
    | none =>
      rw [he] at hrest
      simp at hrest
    | some e =>
      rw [he] at hrest
      cases rest with
      | nil =>
        have hxt : x = t := by
          simp [List.getLast?] at hlast
          exact hlast
        subst hxt
        have hnewer : e.newer = none := by
          simpa [chainB] using hrest
        obtain ⟨eN, heN, heNn⟩ := hentN
        simp only [List.cons_append, List.nil_append, chainB,
          Bool.and_eq_true, decide_eq_true_eq]
        refine ⟨hp, ?_⟩
        rw [hentt e he]
        simp [chainB, heN, heNn]
      | cons y rest' =>
        have hlast' : (y :: rest').getLast? = some t := by
          simpa [List.getLast?_cons_cons] using hlast
        have hxmem : x ∉ (y :: rest') := by
          simpa using (List.nodup_cons.mp hnd).1
        have hnd' : (y :: rest').Nodup := (List.nodup_cons.mp hnd).2
        have hxt : x ≠ t := by
          intro hxeq
          exact hxmem (hxeq ▸ List.mem_of_getLast?_eq_some hlast')
        have hxN : x ≠ N := hvalid x e he
        simp only [List.cons_append, chainB, Bool.and_eq_true,
          decide_eq_true_eq]
        refine ⟨hp, ?_⟩
        rw [hents x hxt hxN, he]
        exact ih e.newer hrest hlast' hnd'

/-- C9: calling `put` with a key `k` that is already present (bound in
the index to node `id1`, which sits somewhere in the order chain `ids`)
registers a freshly created node under `k`, so the cache now carries a
duplicate entry for `k`: the index lookup is orphaned from the previous
node — it returns the new node's id, not `id1` — while the previous
node stays in the heap with its key and value and remains reachable by
walking the linked order list from `head` (the chain is now
`ids ++ [new]`, and `id1` is still on it), until it is separately
unlinked.  Proved for the non-evicting `put`; at capacity the same
`put` additionally runs `shift`, which is such a separate unlink step.
-/
theorem put_duplicate_key_orphans_old_node (c : CacheLRU) (k v id1 : Nat)
    (e1 : Entry) (ids : List Nat)
    (hid1 : getIdx c.keysIdx k = some id1)
    (he1 : c.entries[id1]? = some e1)
    (hord : orderedAs c ids)
    (hmem : id1 ∈ ids)
    (hnodup : ids.Nodup)
    (hnoev : c.currentSize ≠ c.cacheSize) :
    (c.put k v).1 = none ∧
      getIdx ((c.put k v).2).keysIdx k = some c.entries.length ∧
      id1 ≠ c.entries.length ∧
      ((((c.put k v).2).entries[id1]?).map (fun e => (e.key, e.value))) =
        some (e1.key, e1.value) ∧
      orderedAs (c.put k v).2 (ids ++ [c.entries.length]) ∧
      id1 ∈ ids ++ [c.entries.length] := by
  obtain ⟨hch, htl⟩ := hord
  have hne : ids ≠ [] := List.ne_nil_of_mem hmem
  obtain ⟨t, ht⟩ : ∃ t, ids.getLast? = some t :=
    Option.isSome_iff_exists.mp (List.getLast?_isSome.mpr hne)
  have htail : c.tail = some t := by rw [htl, ht]
  have htmem : t ∈ ids := List.mem_of_getLast?_eq_some ht
  obtain ⟨et, het⟩ := chainB_mem_live c ids c.head hch t htmem
  have htlt : t < c.entries.length := getElem?_some_lt het
  have hid1lt : id1 < c.entries.length := getElem?_some_lt he1
  have hput : c.put k v =
      (none,
        { entries := modifyE (modifyE
            (c.entries ++ [{ key := k, value := v, newer := none, older := none }])
            t (fun e => { e with newer := some c.entries.length }))
            c.entries.length (fun e => { e with older := some t }),
          keysIdx := setIdx c.keysIdx k c.entries.length,
          head := c.head,
          tail := some c.entries.length,
          currentSize := c.currentSize + 1,
          cacheSize := c.cacheSize }) := by
    simp only [CacheLRU.put, writeNewer, writeOlder, htail]
    rw [if_neg hnoev]
  rw [hput]
  have hbase : (c.entries ++
      [{ key := k, value := v, newer := none, older := none }])[id1]? = some e1 := by
    rw [getElem?_append_single_ne _ _ _ (by omega)]
    exact he1
  refine ⟨rfl, getIdx_setIdx_self _ _ _, by omega, ?_, ⟨?_, ?_⟩, List.mem_append_left _ hmem⟩
  · by_cases hti : t = id1
    · subst hti
      rw [getElem?_modifyE_ne _ _ _ _ (by omega)]
      rw [getElem?_modifyE_self, hbase]
      rfl
    · rw [getElem?_modifyE_ne _ _ _ _ (by omega),
        getElem?_modifyE_ne _ _ _ _ (fun hc => hti hc.symm), hbase]
      rfl
  · refine chainB_extend c _ c.entries.length t ?_ ?_ ?_ ?_ ids c.head hch ht hnodup
    · intro id hidt hidN
      rw [getElem?_modifyE_ne _ _ _ _ hidN, getElem?_modifyE_ne _ _ _ _ hidt,
        getElem?_append_single_ne _ _ _ hidN]
    · intro e he'
      rw [getElem?_modifyE_ne _ _ _ _ (by omega),
        getElem?_modifyE_self, getElem?_append_single_ne _ _ _ (by omega), he']
      rfl
    · refine ⟨{ key := k, value := v, newer := none, older := some t }, ?_, rfl⟩
      rw [getElem?_modifyE_self,
        getElem?_modifyE_ne _ _ _ _ (by omega : c.entries.length ≠ t),
        List.getElem?_concat_length]
      rfl
    · intro id e he'
      have := getElem?_some_lt he'
      omega
  · rw [List.getLast?_concat]


theorem put_duplicate_key_orphans_old_node_witness :
    (dupBase.put 10 3).1 = none ∧
      getIdx ((dupBase.put 10 3).2).keysIdx 10 = some dupBase.entries.length ∧
      (0 : Nat) ≠ dupBase.entries.length ∧
      ((((dupBase.put 10 3).2).entries[0]?).map (fun e => (e.key, e.value))) =
        some (10, 1) ∧
      orderedAs (dupBase.put 10 3).2 ([0, 1] ++ [dupBase.entries.length]) ∧
      0 ∈ [0, 1] ++ [dupBase.entries.length] :=
  put_duplicate_key_orphans_old_node dupBase 10 3 0 ⟨10, 1, some 1, none⟩ [0, 1]
    (by decide) (by decide) (by decide) (by decide) (by decide) (by decide)

end CacheLRUJS
